import Mathlib

/-!
# xk6bundler: option parsing, orchestration and archiving

A shallow embedding of `cmd/xk6bundler/options.go`, `main.go` and `build.go`.

Go strings are modelled as lists of characters. Every delimiter the program
splits on (`@`, `=`, `/`) is a one-character ASCII string, so splitting on
characters and splitting on bytes agree.
-/

namespace Xk6bundler

/-- Go `string`. -/
abbrev Str := List Char

/-- The error values of the program: the three sentinel errors of `options.go`
(the first two wrapped together with the offending argument by `fmt.Errorf`),
and errors coming from the operating system or from a library. -/
inductive Error where
  | invalidPlatform (arg : Str)
  | missingModule (arg : Str)
  | missingName
  | other (msg : Str)
  deriving DecidableEq, Repr

/-! ## Standard-library string functions -/

/-- Cut `s` around the first occurrence of the one-character separator `sep`
(`strings.Index` followed by slicing, as in `strings.genSplit`). -/
def cut (sep : Char) : Str → Option (Str × Str)
  | [] => none
  | c :: cs =>
    if c = sep then some ([], cs)
    else match cut sep cs with
      | none => none
      | some (a, b) => some (c :: a, b)

/-- Go `strings.SplitN(s, sep, n)` for a one-character separator and `n ≥ 0`:
at most `n` substrings, the last one being the unsplit remainder. -/
def splitN (sep : Char) : Nat → Str → List Str
  | 0, _ => []
  | 1, s => [s]
  | n + 2, s =>
    match cut sep s with
    | none => [s]
    | some (a, b) => a :: splitN sep (n + 1) b

/-- Go `strings.TrimSuffix(s, suffix)`. -/
def trimSuffix (s suffix : Str) : Str :=
  if suffix.isSuffixOf s then s.take (s.length - suffix.length) else s

/-! ## `splitWith` -/

/-- The four named results of `splitWith`. -/
structure SplitWith where
  module : Str
  version : Str
  replace : Str
  err : Option Error
  deriving DecidableEq, Repr

/-- Source: `splitWith` in `options.go`. -/
def splitWith (arg : Str) : SplitWith :=
  let parts := splitN '@' 2 arg
  let module := parts.getD 0 []
  let r : Str × Str × Str :=
    if parts.length = 1 then
      let parts := splitN '=' 2 module
      if parts.length > 1 then (parts.getD 0 [], [], parts.getD 1 [])
      else (module, [], [])
    else
      let version := parts.getD 1 []
      let parts := splitN '=' 2 version
      if parts.length > 1 then (module, parts.getD 0 [], parts.getD 1 [])
      else (module, version, [])
  { module := r.1, version := r.2.1, replace := r.2.2,
    err := if r.1 = [] then some (Error.missingModule arg) else none }

/-! ## `parseWith` -/

/-- The library type `xk6.Dependency`. -/
structure Dependency where
  PackagePath : Str
  Version : Str
  deriving DecidableEq, Repr

/-- The library type `xk6.Replace`. -/
structure Replace where
  Old : Str
  New : Str
  deriving DecidableEq, Repr

/-- The library constructor `xk6.NewReplace(old, new)`, which stores its two
arguments in the fields `Old` and `New`. -/
def NewReplace (old new : Str) : Replace := ⟨old, new⟩

/-- The loop of `parseWith`. `getwd` is the result of `os.Getwd()`; `exts` and
`repls` are `opts.extensions` and `opts.replacements` so far. -/
def parseWithLoop (getwd : Except Error Str) :
    List Str → List Dependency → List Replace → Except Error (List Dependency × List Replace)
  | [], exts, repls => .ok (exts, repls)
  | w :: ws, exts, repls =>
    let r := splitWith w
    match r.err with
    | some e => .error e
    | none =>
      let mod := trimSuffix r.module ['/']
      let exts := exts ++ [{ PackagePath := mod, Version := r.version }]
      if r.replace ≠ [] then
        if r.replace = ['.'] then
          match getwd with
          | .error e => .error e
          | .ok dir => parseWithLoop getwd ws exts (repls ++ [NewReplace mod dir])
        else parseWithLoop getwd ws exts (repls ++ [NewReplace mod r.replace])
      else parseWithLoop getwd ws exts repls

/-- Source: `parseWith` in `options.go`, as a function of `opts.With` and of
the result of `os.Getwd()`; the result is `(opts.extensions, opts.replacements)`. -/
def parseWith (getwd : Except Error Str) (opts_With : List Str) :
    Except Error (List Dependency × List Replace) :=
  parseWithLoop getwd opts_With [] []

/-! ## `splitPlatform` and `parsePlatform` -/

/-- The three named results of `splitPlatform`. -/
structure SplitPlatform where
  os : Str
  arch : Str
  err : Option Error
  deriving DecidableEq, Repr

/-- Source: `splitPlatform` in `options.go`. -/
def splitPlatform (arg : Str) : SplitPlatform :=
  let parts := splitN '/' 2 arg
  if parts.length = 1 then
    { os := [], arch := [], err := some (Error.invalidPlatform arg) }
  else
    { os := parts.getD 0 [], arch := parts.getD 1 [], err := none }

/-- The library type `xk6.Platform`. -/
structure Platform where
  OS : Str
  Arch : Str
  ARM : Str
  deriving DecidableEq, Repr

/-- The loop of `parsePlatform`; `acc` is `opts.platforms` so far. -/
def parsePlatformLoop : List Str → List Platform → Except Error (List Platform)
  | [], acc => .ok acc
  | p :: ps, acc =>
    let r := splitPlatform p
    match r.err with
    | some e => .error e
    | none => parsePlatformLoop ps (acc ++ [{ OS := r.os, Arch := r.arch, ARM := [] }])

/-- Source: `parsePlatform` in `options.go`, as a function of `opts.Platform`;
the result is `opts.platforms`. -/
def parsePlatform (opts_Platform : List Str) : Except Error (List Platform) :=
  parsePlatformLoop opts_Platform []

/-! ## Paths -/

namespace path

/-- Go `path.Base`: the last element of a slash-separated path, after removing
trailing slashes; `"."` for the empty path and `"/"` for a path of slashes. -/
def Base (p : Str) : Str :=
  if p = [] then ['.']
  else
    let stripped := p.reverse.dropWhile (fun c => c == '/')
    let last := (stripped.takeWhile (fun c => c != '/')).reverse
    if last = [] then ['/'] else last

end path

namespace filepath

/-- Go `filepath.Base` on a system whose path separator is `/` and that has no
volume names, where it computes what `path.Base` computes. -/
def Base (p : Str) : Str := path.Base p

end filepath

/-! ## `guessName` -/

/-- A loaded ini file (library `gopkg.in/ini.v1`): its sections by name, each
a list of keys with their values. -/
structure IniFile where
  sections : List (Str × List (Str × Str))
  deriving DecidableEq, Repr

/-- The library call `File.GetSection(name)`; `none` stands for its error. -/
def IniFile.GetSection (f : IniFile) (name : Str) : Option (List (Str × Str)) :=
  f.sections.lookup name

/-- The library call `Section.GetKey(name)` followed by `Key.String()`; `none`
stands for the error of `GetKey`. -/
def GetKey (sec : List (Str × Str)) (name : Str) : Option Str :=
  sec.lookup name

/-- Source: `guessName` in `options.go`, as a function of the result of
`ini.Load(".git/config")` and of the result of `os.Getwd()`. -/
def guessName (load : Except Error IniFile) (getwd : Except Error Str) : Str :=
  match load with
  | .error _ =>
    match getwd with
    | .error _ => []
    | .ok dir => filepath.Base dir
  | .ok gitcfg =>
    match gitcfg.GetSection "remote \"origin\"".toList with
    | none => []
    | some sec =>
      match GetKey sec "url".toList with
      | none => []
      | some key => trimSuffix (path.Base key) ".git".toList

/-! ## `prepareGitHubAction` -/

/-- The process environment as `os.Getenv` sees it: an unset variable reads as
the empty string. -/
abbrev Env := Str → Str

/-- The effect of `os.Setenv(key, value)` on the environment. -/
def setenv (env : Env) (key value : Str) : Env :=
  fun k => if k = key then value else env k

/-- Scan of `strings.ReplaceAll` for a non-empty `old`: `skip` counts the
characters of a matched occurrence still to be dropped. -/
def replaceAllAux (old new : Str) : Nat → Str → Str
  | _, [] => []
  | skip + 1, _ :: cs => replaceAllAux old new skip cs
  | 0, c :: cs =>
    if old.isPrefixOf (c :: cs) then new ++ replaceAllAux old new (old.length - 1) cs
    else c :: replaceAllAux old new 0 cs

/-- Go `strings.ReplaceAll(s, old, new)`: every non-overlapping occurrence of
`old`, from the left, is replaced by `new`; an empty `old` matches before every
character and at the end. -/
def replaceAll (s old new : Str) : Str :=
  if old = [] then new ++ s.flatMap (fun c => c :: new)
  else replaceAllAux old new 0 s

/-- Source: `prepareGitHubAction` in `options.go`. `keys` are the
`EnvDefaultKey` fields of the options of the group, `env` the environment; the
result is both after the call. The error result of `os.Setenv` is discarded by
the source. -/
def prepareGitHubAction (keys : List Str) (env : Env) : List Str × Env :=
  let keys := keys.map (fun k =>
    if k = [] then k else replaceAll k "XK6BUNDLER".toList "INPUT".toList)
  let ref := env "GITHUB_REF".toList
  let env : Env :=
    if ref ≠ [] then
      let parts := splitN '/' 3 ref
      if parts.length = 3 then setenv env "INPUT_VERSION".toList (parts.getD (3 - 1) [])
      else env
    else env
  let repo := env "GITHUB_REPOSITORY".toList
  let env : Env :=
    if repo ≠ [] then
      let parts := splitN '/' 2 repo
      if parts.length = 2 then
        if env "INPUT_NAME".toList = [] then setenv env "INPUT_NAME".toList (parts.getD (2 - 1) [])
        else env
      else env
    else env
  (keys, env)

/-! ## `createArchive` -/

/-- What `os.FileInfo` gives to a tar header. -/
structure FileInfo where
  Size : Nat
  Mode : Nat
  ModTime : Nat
  deriving DecidableEq, Repr

/-- The fields of `tar.Header` that `addToArchive` sets. -/
structure Header where
  Name : Str
  Size : Nat
  Mode : Nat
  ModTime : Nat
  deriving DecidableEq, Repr

/-- An opened file: the result of `file.Stat()`. -/
structure File where
  Stat : Except Error FileInfo

/-- The file system and the archive writers as `createArchive` sees them: the
outcome of `os.Create`, of `os.Open`, of `tar.Writer.WriteHeader` and of
`io.Copy` into the archive (`none` is success). -/
structure FS where
  Create : Str → Option Error
  Open : Str → Except Error File
  WriteHeader : Header → Option Error
  Copy : Str → Option Error

/-- Source: `addToArchive` in `build.go`. `members` are the headers written to
the tar writer so far; the result is the headers written after the call and
the returned error. -/
def addToArchive (fs : FS) (members : List Header) (path : Str) (optional : Bool) :
    List Header × Option Error :=
  match fs.Open path with
  | .error err => if optional then (members, none) else (members, some err)
  | .ok file =>
    match file.Stat with
    | .error err => (members, some err)
    | .ok stat =>
      let name := filepath.Base path
      let header : Header :=
        { Name := name, Size := stat.Size, Mode := stat.Mode, ModTime := stat.ModTime }
      match fs.WriteHeader header with
      | some err => (members, some err)
      | none =>
        match fs.Copy path with
        | some err => (members ++ [header], some err)
        | none => (members ++ [header], none)

/-- Source: `createArchive` in `build.go`: the headers written to the archive,
in order, and the returned error. -/
def createArchive (fs : FS) (archive output : Str) : List Header × Option Error :=
  match fs.Create archive with
  | some err => ([], some err)
  | none =>
    match addToArchive fs [] output false with
    | (members, some err) => (members, some err)
    | (members, none) =>
      match addToArchive fs members "LICENSE".toList true with
      | (members, some err) => (members, some err)
      | (members, none) => addToArchive fs members "README.md".toList true

/-- Whether `os.Open` succeeds on a path. -/
def FS.canOpen (fs : FS) (path : Str) : Bool :=
  match fs.Open path with
  | .ok _ => true
  | .error _ => false

/-! ## `run` -/

/-- The fields of `options` that `run` reads. -/
structure Options where
  About : Bool
  Name : Str
  Version : Str
  Output : Str
  platforms : List Platform

/-- The platform loop of `run`: the platforms `build` was invoked on, in order
of invocation, and the error that ended the loop, if any. -/
def buildLoop (build : Platform → Option Error) : List Platform → List Platform × Option Error
  | [] => ([], none)
  | platform :: rest =>
    match build platform with
    | some err => ([platform], some err)
    | none => (platform :: (buildLoop build rest).1, (buildLoop build rest).2)

/-- The exit code of `run` and the platforms `build` was invoked on. -/
structure RunResult where
  code : Int
  built : List Platform
  deriving DecidableEq, Repr

/-- Source: `run` in `main.go`, as a function of the result of `parseOptions`,
of the outcome of `build` for each platform, of `isGitHubAction()` and of the
outcome of `outGitHubAction`. What is printed is left out. -/
def run (parsed : Except Error Options) (build : Platform → Options → Option Error)
    (isGitHubAction : Bool) (outGitHubAction : Options → Option Error) : RunResult :=
  match parsed with
  | .error _ => ⟨1, []⟩
  | .ok opts =>
    if opts.About then ⟨0, []⟩
    else
      match buildLoop (fun p => build p opts) opts.platforms with
      | (built, some _) => ⟨1, built⟩
      | (built, none) =>
        if !isGitHubAction then ⟨0, built⟩
        else
          match outGitHubAction opts with
          | some _ => ⟨1, built⟩
          | none => ⟨0, built⟩

/-! ## Predicates used in the statements -/

/-- The tokens on which `splitWith` reports a missing module: the empty
token, a token starting with `@`, and a token starting with `=` that has
no `@`. -/
def moduleMissing (arg : Str) : Prop :=
  arg = [] ∨ arg.head? = some '@' ∨ (arg.head? = some '=' ∧ '@' ∉ arg)

instance (arg : Str) : Decidable (moduleMissing arg) := by
  unfold moduleMissing; infer_instance

/-- What `parsePlatform` builds from one accepted token. -/
def PlatformOf (tok : Str) (p : Platform) : Prop :=
  p.ARM = [] ∧ '/' ∉ p.OS ∧ p.OS ++ ['/'] ++ p.Arch = tok

/-- What `parseWith` appends to `opts.extensions` for one accepted token. -/
def dependencyOf (tok : Str) : Dependency :=
  { PackagePath := trimSuffix (splitWith tok).module ['/'], Version := (splitWith tok).version }

/-- Options as `parseOptions` leaves them for the default platforms
`linux/amd64` and `windows/amd64`, with the flag `-V` given or not. -/
def sampleOptions (about : Bool) : Options :=
  { About := about, Name := "acme".toList, Version := "1.0".toList,
    Output := "dist/k6".toList,
    platforms := [⟨"linux".toList, "amd64".toList, []⟩, ⟨"windows".toList, "amd64".toList, []⟩] }

/-- A builder that fails on every platform whose os is `os`. -/
def failOn (os : Str) : Platform → Options → Option Error :=
  fun p _ => if p.OS = os then some (Error.other "build failed".toList) else none

/-- A file system in which every file opens, every write succeeds, and
`Stat` fails exactly on the opened file `unstatable`. -/
def statFailsOn (unstatable : Str) : FS :=
  { Create := fun _ => none,
    Open := fun p => .ok ⟨if p = unstatable then .error (Error.other "stat".toList) else .ok ⟨0, 0, 0⟩⟩,
    WriteHeader := fun _ => none,
    Copy := fun _ => none }

/-- A file system in which `LICENSE` does not exist and everything else
succeeds. -/
def noLicense : FS :=
  { Create := fun _ => none,
    Open := fun p =>
      if p = "LICENSE".toList then .error (Error.other "no such file".toList) else .ok ⟨.ok ⟨7, 420, 0⟩⟩,
    WriteHeader := fun _ => none,
    Copy := fun _ => none }

/-- An environment in which the input `version` is given explicitly and the
ref is a tag. -/
def taggedEnv : Env := fun k =>
  if k = "INPUT_VERSION".toList then "1.2.3".toList
  else if k = "GITHUB_REF".toList then "refs/tags/v9".toList
  else []

/-! ## Lemmas on `cut` and `splitN` -/

theorem cut_eq_none {sep : Char} {s : Str} (h : sep ∉ s) : cut sep s = none := by
  induction s with
  | nil => rfl
  | cons c cs ih =>
    simp only [List.mem_cons, not_or] at h
    have hc : ¬ c = sep := fun e => h.1 e.symm
    simp [cut, hc, ih h.2]

theorem cut_append {sep : Char} (a b : Str) (h : sep ∉ a) :
    cut sep (a ++ sep :: b) = some (a, b) := by
  induction a with
  | nil => simp [cut]
  | cons c cs ih =>
    simp only [List.mem_cons, not_or] at h
    have hc : ¬ c = sep := fun e => h.1 e.symm
    simp [cut, hc, ih h.2]

theorem cut_some {sep : Char} {s a b : Str} (h : cut sep s = some (a, b)) :
    s = a ++ sep :: b ∧ sep ∉ a := by
  induction s generalizing a with
  | nil => simp [cut] at h
  | cons c cs ih =>
    by_cases hc : c = sep
    · simp [cut, hc] at h
      obtain ⟨rfl, rfl⟩ := h
      simp [hc]
    · cases hr : cut sep cs with
      | none => simp [cut, hc, hr] at h
      | some p =>
        obtain ⟨a', b'⟩ := p
        simp [cut, hc, hr] at h
        obtain ⟨rfl, rfl⟩ := h
        obtain ⟨h1, h2⟩ := ih hr
        refine ⟨by simp [h1], ?_⟩
        simp only [List.mem_cons, not_or]
        exact ⟨fun e => hc e.symm, h2⟩

theorem cut_isSome_iff {sep : Char} {s : Str} : (cut sep s).isSome ↔ sep ∈ s := by
  constructor
  · intro h
    cases hr : cut sep s with
    | none => simp [hr] at h
    | some p =>
      obtain ⟨a, b⟩ := p
      have := (cut_some hr).1
      rw [this]; simp
  · intro h
    by_contra hn
    induction s with
    | nil => simp at h
    | cons c cs ih =>
      by_cases hc : c = sep
      · simp [cut, hc] at hn
      · have hcs : sep ∈ cs := by
          rcases List.mem_cons.1 h with e | e
          · exact absurd e.symm hc
          · exact e
        apply ih hcs
        intro hsome
        apply hn
        cases hr : cut sep cs with
        | none => simp [hr] at hsome
        | some p => simp [cut, hc, hr]

theorem splitN_two (sep : Char) (s : Str) :
    splitN sep 2 s = match cut sep s with
      | none => [s]
      | some (a, b) => [a, b] := by
  cases h : cut sep s with
  | none => simp [splitN, h]
  | some p => obtain ⟨a, b⟩ := p; simp [splitN, h]

theorem splitWith_of_at {arg m rest : Str} (h : cut '@' arg = some (m, rest)) :
    splitWith arg =
      match cut '=' rest with
      | none => ⟨m, rest, [], if m = [] then some (Error.missingModule arg) else none⟩
      | some (v, r) => ⟨m, v, r, if m = [] then some (Error.missingModule arg) else none⟩ := by
  cases hr : cut '=' rest with
  | none => simp [splitWith, splitN_two, h, hr]
  | some p => obtain ⟨v, r⟩ := p; simp [splitWith, splitN_two, h, hr]

theorem splitWith_of_no_at {arg : Str} (h : cut '@' arg = none) :
    splitWith arg =
      match cut '=' arg with
      | none => ⟨arg, [], [], if arg = [] then some (Error.missingModule arg) else none⟩
      | some (m, r) => ⟨m, [], r, if m = [] then some (Error.missingModule arg) else none⟩ := by
  cases hr : cut '=' arg with
  | none => simp [splitWith, splitN_two, h, hr]
  | some p => obtain ⟨v, r⟩ := p; simp [splitWith, splitN_two, h, hr]

/-! ## Claims on `splitWith` -/

theorem cut_fst_nil_iff {sep : Char} {s a b : Str} (h : cut sep s = some (a, b)) :
    a = [] ↔ s.head? = some sep := by
  obtain ⟨rfl, -⟩ := cut_some h
  cases a <;> simp
  intro e
  have := (cut_some h).2
  simp [e] at this

theorem splitWith_module_nil_iff (arg : Str) :
    (splitWith arg).module = [] ↔ moduleMissing arg := by
  unfold moduleMissing
  cases h : cut '@' arg with
  | some p =>
    obtain ⟨m, rest⟩ := p
    have hmem : '@' ∈ arg := cut_isSome_iff.1 (by simp [h])
    have hm : (splitWith arg).module = m := by
      rw [splitWith_of_at h]; cases cut '=' rest <;> rfl
    rw [hm, cut_fst_nil_iff h]
    constructor
    · intro e; exact Or.inr (Or.inl e)
    · rintro (e | e | ⟨-, e⟩)
      · simp [e] at hmem
      · exact e
      · exact absurd hmem e
  | none =>
    have hmem : '@' ∉ arg := fun hin => by
      have := cut_isSome_iff.2 hin
      simp [h] at this
    cases h2 : cut '=' arg with
    | none =>
      have hm : (splitWith arg).module = arg := by
        rw [splitWith_of_no_at h, h2]
      have heq : '=' ∉ arg := fun hin => by
        have := cut_isSome_iff.2 hin
        simp [h2] at this
      rw [hm]
      constructor
      · intro e; exact Or.inl e
      · rintro (e | e | ⟨e, -⟩)
        · exact e
        · cases arg with
          | nil => rfl
          | cons c cs => simp at e; simp [e] at hmem
        · cases arg with
          | nil => rfl
          | cons c cs => simp at e; simp [e] at heq
    | some p =>
      obtain ⟨m, r⟩ := p
      have hm : (splitWith arg).module = m := by
        rw [splitWith_of_no_at h, h2]
      rw [hm, cut_fst_nil_iff h2]
      constructor
      · intro e; exact Or.inr (Or.inr ⟨e, hmem⟩)
      · rintro (e | e | ⟨e, -⟩)
        · rw [e] at h2; simp [cut] at h2
        · cases arg with
          | nil => simp at e
          | cons c cs => simp at e; simp [e] at hmem
        · exact e

theorem splitWith_err (arg : Str) :
    (splitWith arg).err =
      if (splitWith arg).module = [] then some (Error.missingModule arg) else none := by
  simp only [splitWith]

/-- C1: for a non-empty module `m` without `@`, a version `v` without `=` and
any replacement `r`, `splitWith (m@v=r)` returns module `m`, version `v`,
replacement `r` and no error, and `splitWith (m@v)` returns module `m`,
version `v`, an empty replacement and no error; `m` may contain `=`. -/
theorem splitWith_module_version_replace (m v r : Str)
    (hm : m ≠ []) (hat : '@' ∉ m) (hv : '=' ∉ v) :
    splitWith (m ++ ['@'] ++ v ++ ['='] ++ r) = ⟨m, v, r, none⟩ ∧
    splitWith (m ++ ['@'] ++ v) = ⟨m, v, [], none⟩ := by
  constructor
  · have h : cut '@' (m ++ ['@'] ++ v ++ ['='] ++ r) = some (m, v ++ '=' :: r) := by
      have := cut_append m (v ++ '=' :: r) hat
      simpa using this
    rw [splitWith_of_at h, cut_append v r hv]
    simp [hm]
  · have h : cut '@' (m ++ ['@'] ++ v) = some (m, v) := by
      have := cut_append m v hat
      simpa using this
    rw [splitWith_of_at h, cut_eq_none hv]
    simp [hm]

theorem splitWith_module_version_replace_witness :
    splitWith ("a=b".toList ++ ['@'] ++ "v1@x".toList ++ ['='] ++ "/p=q@r".toList)
      = ⟨"a=b".toList, "v1@x".toList, "/p=q@r".toList, none⟩ ∧
    splitWith ("a=b".toList ++ ['@'] ++ "v1@x".toList) = ⟨"a=b".toList, "v1@x".toList, [], none⟩ :=
  splitWith_module_version_replace "a=b".toList "v1@x".toList "/p=q@r".toList
    (by decide) (by decide) (by decide)

/-- C2: `splitWith` returns an error wrapping `ErrMissingModule` exactly when
the module component is empty, which is exactly when the token is empty, or
begins with `@`, or begins with `=` and contains no `@`; on every other token
it returns no error and a non-empty module. The tokens `""` and `"@1.0"` both
fail with `ErrMissingModule`. -/
theorem splitWith_missing_module_iff (arg : Str) :
    ((splitWith arg).err = some (Error.missingModule arg) ↔ (splitWith arg).module = []) ∧
    ((splitWith arg).module = [] ↔ moduleMissing arg) ∧
    (((splitWith arg).err = none ∧ (splitWith arg).module ≠ []) ↔ ¬ moduleMissing arg) ∧
    (splitWith []).err = some (Error.missingModule []) ∧
    (splitWith "@1.0".toList).err = some (Error.missingModule "@1.0".toList) := by
  refine ⟨?_, splitWith_module_nil_iff arg, ?_, by decide, by decide⟩
  · rw [splitWith_err]; split <;> simp [*]
  · rw [splitWith_err, ← splitWith_module_nil_iff]; split <;> simp [*]

/-- C6 (as stated, refuted): with module `a` and replacement `b@c`, the token
`a=b@c` is cut at the `@` first, so the module is `a=b`, the version is `c`
and the replacement is empty, not module `a` with replacement `b@c`. -/
theorem splitWith_module_replace_counterexample :
    "a".toList ≠ [] ∧ '@' ∉ "a".toList ∧ '=' ∉ "a".toList ∧
    splitWith ("a".toList ++ ['='] ++ "b@c".toList) = ⟨"a=b".toList, "c".toList, [], none⟩ ∧
    splitWith ("a".toList ++ ['='] ++ "b@c".toList) ≠ ⟨"a".toList, [], "b@c".toList, none⟩ := by
  decide

/-- C6 (amended): for a non-empty module `m` containing neither `@` nor `=`
and a replacement `r` containing no `@`, `splitWith (m=r)` returns module `m`,
an empty version, replacement `r` and no error; and `splitWith m` returns
module `m`, empty version and replacement, and no error. -/
theorem splitWith_module_replace (m r : Str)
    (hm : m ≠ []) (hat : '@' ∉ m) (heq : '=' ∉ m) (hr : '@' ∉ r) :
    splitWith (m ++ ['='] ++ r) = ⟨m, [], r, none⟩ ∧
    splitWith m = ⟨m, [], [], none⟩ := by
  constructor
  · have h : cut '@' (m ++ ['='] ++ r) = none := by
      apply cut_eq_none
      simp [hat, hr]
    have h2 : cut '=' (m ++ ['='] ++ r) = some (m, r) := by
      have := cut_append m r heq
      simpa using this
    rw [splitWith_of_no_at h, h2]
    simp [hm]
  · rw [splitWith_of_no_at (cut_eq_none hat), cut_eq_none heq]
    simp [hm]

theorem splitWith_module_replace_witness :
    splitWith ("github.com/x/y".toList ++ ['='] ++ "/src/y=z".toList)
      = ⟨"github.com/x/y".toList, [], "/src/y=z".toList, none⟩ ∧
    splitWith "github.com/x/y".toList = ⟨"github.com/x/y".toList, [], [], none⟩ :=
  splitWith_module_replace "github.com/x/y".toList "/src/y=z".toList
    (by decide) (by decide) (by decide) (by decide)

/-! ## Claims on `splitPlatform` and `parsePlatform` -/

theorem splitPlatform_of_cut_none {arg : Str} (h : cut '/' arg = none) :
    splitPlatform arg = ⟨[], [], some (Error.invalidPlatform arg)⟩ := by
  simp [splitPlatform, splitN_two, h]

theorem splitPlatform_of_cut_some {arg a b : Str} (h : cut '/' arg = some (a, b)) :
    splitPlatform arg = ⟨a, b, none⟩ := by
  simp [splitPlatform, splitN_two, h]

/-- C3: `splitPlatform` returns an error wrapping `ErrInvalidPlatform` if and
only if the token contains no `/`; when the token contains a `/` there is no
error, `os` contains no `/`, and `os ++ "/" ++ arch` is the token (so `os` is
the text before the first `/` and `arch` all the text after it).
`"linux/amd64"` yields `("linux", "amd64")` and `"linux"` fails. -/
theorem splitPlatform_spec (arg : Str) :
    ((splitPlatform arg).err = some (Error.invalidPlatform arg) ↔ '/' ∉ arg) ∧
    (((splitPlatform arg).err = none ∧ '/' ∉ (splitPlatform arg).os ∧
        (splitPlatform arg).os ++ ['/'] ++ (splitPlatform arg).arch = arg) ↔ '/' ∈ arg) ∧
    splitPlatform "linux/amd64".toList = ⟨"linux".toList, "amd64".toList, none⟩ ∧
    (splitPlatform "linux".toList).err = some (Error.invalidPlatform "linux".toList) := by
  refine ⟨?_, ?_, by decide, by decide⟩
  · cases h : cut '/' arg with
    | none =>
      have : '/' ∉ arg := fun hin => by
        have := cut_isSome_iff.2 hin
        simp [h] at this
      simp [splitPlatform_of_cut_none h, this]
    | some p =>
      obtain ⟨a, b⟩ := p
      have : '/' ∈ arg := cut_isSome_iff.1 (by simp [h])
      simp [splitPlatform_of_cut_some h, this]
  · cases h : cut '/' arg with
    | none =>
      have : '/' ∉ arg := fun hin => by
        have := cut_isSome_iff.2 hin
        simp [h] at this
      simp [splitPlatform_of_cut_none h, this]
    | some p =>
      obtain ⟨a, b⟩ := p
      have hin : '/' ∈ arg := cut_isSome_iff.1 (by simp [h])
      obtain ⟨h1, h2⟩ := cut_some h
      rw [splitPlatform_of_cut_some h]
      simp only [hin, iff_true, true_and]
      exact ⟨h2, by simp [h1]⟩

theorem parsePlatformLoop_ok {toks : List Str} {acc ps : List Platform}
    (h : parsePlatformLoop toks acc = .ok ps) :
    ∃ new, ps = acc ++ new ∧ List.Forall₂ PlatformOf toks new := by
  induction toks generalizing acc with
  | nil =>
    simp [parsePlatformLoop] at h
    exact ⟨[], by simp [h], List.Forall₂.nil⟩
  | cons t ts ih =>
    cases hc : cut '/' t with
    | none => simp [parsePlatformLoop, splitPlatform_of_cut_none hc] at h
    | some q =>
      obtain ⟨a, b⟩ := q
      simp only [parsePlatformLoop, splitPlatform_of_cut_some hc] at h
      obtain ⟨new, hnew, hall⟩ := ih h
      obtain ⟨h1, h2⟩ := cut_some hc
      refine ⟨⟨a, b, []⟩ :: new, by simp [hnew], List.Forall₂.cons ?_ hall⟩
      exact ⟨rfl, h2, by simp [h1]⟩

theorem parsePlatformLoop_total {toks : List Str} (acc : List Platform)
    (h : ∀ t ∈ toks, '/' ∈ t) : ∃ ps, parsePlatformLoop toks acc = .ok ps := by
  induction toks generalizing acc with
  | nil => exact ⟨acc, rfl⟩
  | cons t ts ih =>
    have ht : '/' ∈ t := h t (List.mem_cons_self _ _)
    cases hc : cut '/' t with
    | none =>
      have := cut_isSome_iff.2 ht
      simp [hc] at this
    | some q =>
      obtain ⟨a, b⟩ := q
      simp only [parsePlatformLoop, splitPlatform_of_cut_some hc]
      exact ih _ (fun t' ht' => h t' (List.mem_cons_of_mem _ ht'))

/-- C10 (as stated, refuted): `parsePlatform` accepts the token `"/"` and
produces a platform whose os and arch are both empty. -/
theorem parsePlatform_empty_components_counterexample :
    parsePlatform ["/".toList] = .ok [{ OS := [], Arch := [], ARM := [] }] ∧
    parsePlatform ["linux/".toList] = .ok [{ OS := "linux".toList, Arch := [], ARM := [] }] := by
  constructor <;> rfl

/-- C10 (amended): if `parsePlatform` succeeds, `opts.platforms` has exactly
one entry per input token, in input order with duplicates kept; each entry has
an empty ARM field, an os without `/`, and `os ++ "/" ++ arch` equal to its
token, so os and arch are the text before and after the first `/` of the
token, either of which may be empty. -/
theorem parsePlatform_ok (toks : List Str) (ps : List Platform)
    (h : parsePlatform toks = .ok ps) :
    ps.length = toks.length ∧ List.Forall₂ PlatformOf toks ps := by
  obtain ⟨new, hnew, hall⟩ := parsePlatformLoop_ok h
  simp only [List.nil_append] at hnew
  subst hnew
  exact ⟨hall.length_eq.symm, hall⟩

theorem parsePlatform_ok_witness :
    parsePlatform ["linux/amd64".toList, "/".toList, "linux/amd64".toList] =
      .ok [⟨"linux".toList, "amd64".toList, []⟩, ⟨[], [], []⟩, ⟨"linux".toList, "amd64".toList, []⟩] ∧
    ([⟨"linux".toList, "amd64".toList, []⟩, ⟨[], [], []⟩,
        ⟨"linux".toList, "amd64".toList, []⟩] : List Platform).length =
      ["linux/amd64".toList, "/".toList, "linux/amd64".toList].length ∧
    List.Forall₂ PlatformOf ["linux/amd64".toList, "/".toList, "linux/amd64".toList]
      [⟨"linux".toList, "amd64".toList, []⟩, ⟨[], [], []⟩, ⟨"linux".toList, "amd64".toList, []⟩] :=
  ⟨rfl, parsePlatform_ok _ _ rfl⟩

/-! ## Claims on `parseWith` -/

theorem parseWithLoop_ok {getwd : Except Error Str} {toks : List Str}
    {exts exts' : List Dependency} {repls repls' : List Replace}
    (h : parseWithLoop getwd toks exts repls = .ok (exts', repls')) :
    exts' = exts ++ toks.map dependencyOf ∧
    ∃ new, repls' = repls ++ new ∧
      ∀ r ∈ new, ∃ t ∈ toks, r.Old = (dependencyOf t).PackagePath ∧ (splitWith t).replace ≠ [] := by
  induction toks generalizing exts repls with
  | nil =>
    simp [parseWithLoop] at h
    exact ⟨by simp [h.1], [], by simp [h.2], by simp⟩
  | cons t ts ih =>
    simp only [parseWithLoop] at h
    cases he : (splitWith t).err with
    | some e => simp [he] at h
    | none =>
      simp only [he] at h
      by_cases hr : (splitWith t).replace = []
      · simp only [hr, ne_eq, not_true_eq_false, if_false] at h
        obtain ⟨h1, new, h2, h3⟩ := ih h
        refine ⟨by simp [h1, dependencyOf], new, h2, ?_⟩
        intro r hrn
        obtain ⟨t', ht', hh⟩ := h3 r hrn
        exact ⟨t', List.mem_cons_of_mem _ ht', hh⟩
      · simp only [ne_eq, hr, not_false_eq_true, if_true] at h
        by_cases hd : (splitWith t).replace = ['.']
        · simp only [hd, if_true] at h
          cases hg : getwd with
          | error e => simp [hg] at h
          | ok dir =>
            simp only [hg] at h
            rw [← hg] at h
            obtain ⟨h1, new, h2, h3⟩ := ih h
            refine ⟨by simp [h1, dependencyOf],
              NewReplace (trimSuffix (splitWith t).module ['/']) dir :: new, by simp [h2], ?_⟩
            intro r hrn
            rcases List.mem_cons.1 hrn with e | e
            · exact ⟨t, List.mem_cons_self _ _, by simp [e, NewReplace, dependencyOf], hr⟩
            · obtain ⟨t', ht', hh⟩ := h3 r e
              exact ⟨t', List.mem_cons_of_mem _ ht', hh⟩
        · simp only [hd, if_false] at h
          obtain ⟨h1, new, h2, h3⟩ := ih h
          refine ⟨by simp [h1, dependencyOf],
            NewReplace (trimSuffix (splitWith t).module ['/']) (splitWith t).replace :: new,
            by simp [h2], ?_⟩
          intro r hrn
          rcases List.mem_cons.1 hrn with e | e
          · exact ⟨t, List.mem_cons_self _ _, by simp [e, NewReplace, dependencyOf], hr⟩
          · obtain ⟨t', ht', hh⟩ := h3 r e
            exact ⟨t', List.mem_cons_of_mem _ ht', hh⟩

/-- The part of C9 that holds: if `parseWith` succeeds, `opts.extensions` has
exactly one entry per token, in input order and without deduplication, and
every `Replace` names the trimmed module of a token that carries a
replacement. -/
theorem parseWith_ok_order (getwd : Except Error Str) (toks : List Str)
    (exts : List Dependency) (repls : List Replace)
    (h : parseWith getwd toks = .ok (exts, repls)) :
    exts = toks.map dependencyOf ∧
    ∀ r ∈ repls, ∃ t ∈ toks, r.Old = (dependencyOf t).PackagePath ∧ (splitWith t).replace ≠ [] := by
  obtain ⟨h1, new, h2, h3⟩ := parseWithLoop_ok h
  simp only [List.nil_append] at h1 h2
  subst h2
  exact ⟨h1, h3⟩

/-- C9 (defect in the code): `parseWith` accepts the token `"/"`, whose module
`"/"` passes the emptiness check of `splitWith` and is emptied afterwards by
`strings.TrimSuffix(mod, "/")`, so `opts.extensions` gets a dependency with an
empty module path. -/
theorem parseWith_empty_module_path (getwd : Except Error Str) :
    (splitWith "/".toList).err = none ∧
    parseWith getwd ["/".toList] = .ok ([{ PackagePath := [], Version := [] }], []) ∧
    parseWith getwd ["/@v1=/src".toList] =
      .ok ([{ PackagePath := [], Version := "v1".toList }], [NewReplace [] "/src".toList]) := by
  refine ⟨by decide, rfl, rfl⟩

/-! ## Claims on `run` -/

theorem buildLoop_prefix (b : Platform → Option Error) (ps : List Platform) :
    (buildLoop b ps).1 <+: ps := by
  induction ps with
  | nil => simp [buildLoop]
  | cons p ps ih =>
    cases hb : b p with
    | some e => simp [buildLoop, hb, List.prefix_cons_inj, List.nil_prefix]
    | none => simpa [buildLoop, hb, List.prefix_cons_inj] using ih

theorem buildLoop_fail (b : Platform → Option Error) (ps : List Platform)
    (i : Nat) (hi : i < ps.length) (hb : b ps[i] ≠ none) :
    (buildLoop b ps).1.length ≤ i + 1 ∧ (buildLoop b ps).2 ≠ none := by
  induction ps generalizing i with
  | nil => simp at hi
  | cons p ps ih =>
    cases hp : b p with
    | some e => simp [buildLoop, hp]
    | none =>
      cases i with
      | zero => simp [hp] at hb
      | succ j =>
        simp only [List.getElem_cons_succ] at hb
        have := ih j (by simpa using hi) hb
        simpa [buildLoop, hp] using this

theorem buildLoop_ok (b : Platform → Option Error) (ps : List Platform)
    (h : ∀ p ∈ ps, b p = none) : buildLoop b ps = (ps, none) := by
  induction ps with
  | nil => rfl
  | cons p ps ih =>
    have hp : b p = none := h p (List.mem_cons_self _ _)
    have := ih (fun q hq => h q (List.mem_cons_of_mem _ hq))
    simp [buildLoop, hp, this]

theorem run_built (opts : Options) (build : Platform → Options → Option Error)
    (ci : Bool) (out : Options → Option Error) (hAbout : opts.About = false) :
    (run (.ok opts) build ci out).built = (buildLoop (fun p => build p opts) opts.platforms).1 := by
  simp only [run, hAbout]
  rcases hl : buildLoop (fun p => build p opts) opts.platforms with ⟨built, _ | e⟩
  · cases ci <;> cases out opts <;> rfl
  · simp

theorem run_code_of_error (opts : Options) (build : Platform → Options → Option Error)
    (ci : Bool) (out : Options → Option Error) (hAbout : opts.About = false)
    (h : (buildLoop (fun p => build p opts) opts.platforms).2 ≠ none) :
    (run (.ok opts) build ci out).code = 1 := by
  simp only [run, hAbout]
  rcases hl : buildLoop (fun p => build p opts) opts.platforms with ⟨built, _ | e⟩
  · simp [hl] at h
  · simp

/-- C4 (as stated, refuted): with the flag `-V` set, `run` returns 0 without
invoking `build` at all, whether `build` would succeed on every platform or
fail on the first one. -/
theorem run_about_counterexample :
    (sampleOptions true).platforms.length = 2 ∧
    (∀ p ∈ (sampleOptions true).platforms, failOn "plan9".toList p (sampleOptions true) = none) ∧
    (run (.ok (sampleOptions true)) (failOn "plan9".toList) false (fun _ => none)).built = [] ∧
    failOn "linux".toList ⟨"linux".toList, "amd64".toList, []⟩ (sampleOptions true) ≠ none ∧
    (run (.ok (sampleOptions true)) (failOn "linux".toList) false (fun _ => none)).code = 0 := by
  refine ⟨rfl, by decide, rfl, by decide, rfl⟩

/-- C4 (amended): when `parseOptions` succeeds and the flag `-V` is not set,
`run` invokes `build` on a prefix of the platform list, in list order; if
`build` fails for the platform at index `i`, it is not invoked at any index
above `i` and `run` returns 1; if `build` fails for no platform, it is invoked
exactly once per list element, duplicates included, and outside a CI
environment `run` returns 0. With the flag `-V` set, `run` returns 0 without
invoking `build` on any platform. -/
theorem run_fail_fast (opts : Options) (build : Platform → Options → Option Error)
    (ci : Bool) (out : Options → Option Error) :
    (opts.About = true → run (.ok opts) build ci out = ⟨0, []⟩) ∧
    (opts.About = false →
      (run (.ok opts) build ci out).built <+: opts.platforms ∧
      (∀ (i : Nat) (hi : i < opts.platforms.length), build opts.platforms[i] opts ≠ none →
        (run (.ok opts) build ci out).built.length ≤ i + 1 ∧
        (run (.ok opts) build ci out).code = 1) ∧
      ((∀ p ∈ opts.platforms, build p opts = none) →
        (run (.ok opts) build ci out).built = opts.platforms ∧
        (ci = false → (run (.ok opts) build ci out).code = 0))) := by
  refine ⟨fun hAbout => by simp [run, hAbout], fun hAbout => ⟨?_, ?_, ?_⟩⟩
  · rw [run_built opts build ci out hAbout]
    exact buildLoop_prefix _ _
  · intro i hi hb
    have := buildLoop_fail (fun p => build p opts) opts.platforms i hi hb
    exact ⟨by rw [run_built opts build ci out hAbout]; exact this.1,
      run_code_of_error opts build ci out hAbout this.2⟩
  · intro h
    have hl := buildLoop_ok (fun p => build p opts) opts.platforms h
    refine ⟨by rw [run_built opts build ci out hAbout, hl], ?_⟩
    intro hci
    simp [run, hAbout, hl, hci]

theorem run_fail_fast_witness :
    (sampleOptions false).About = false ∧
    (run (.ok (sampleOptions false)) (failOn "linux".toList) false (fun _ => none)).built
      = [⟨"linux".toList, "amd64".toList, []⟩] ∧
    (run (.ok (sampleOptions false)) (failOn "linux".toList) false (fun _ => none)).code = 1 ∧
    (run (.ok (sampleOptions false)) (failOn "plan9".toList) false (fun _ => none)).built
      = (sampleOptions false).platforms ∧
    (run (.ok (sampleOptions false)) (failOn "plan9".toList) false (fun _ => none)).code = 0 ∧
    (sampleOptions true).About = true ∧
    run (.ok (sampleOptions true)) (failOn "linux".toList) true (fun _ => none) = ⟨0, []⟩ :=
  ⟨rfl, rfl,
    (((run_fail_fast (sampleOptions false) (failOn "linux".toList) false (fun _ => none)).2 rfl).2.1
      0 (by decide) (by decide)).2,
    (((run_fail_fast (sampleOptions false) (failOn "plan9".toList) false (fun _ => none)).2 rfl).2.2
      (by decide)).1,
    (((run_fail_fast (sampleOptions false) (failOn "plan9".toList) false (fun _ => none)).2 rfl).2.2
      (by decide)).2 rfl,
    rfl,
    (run_fail_fast (sampleOptions true) (failOn "linux".toList) true (fun _ => none)).1 rfl⟩

/-! ## Claims on `createArchive` -/

theorem addToArchive_of_open_error {fs : FS} {path : Str} {e : Error}
    (members : List Header) (optional : Bool) (h : fs.Open path = .error e) :
    addToArchive fs members path optional = (members, if optional then none else some e) := by
  cases optional <;> simp [addToArchive, h]

theorem addToArchive_of_open_ok {fs : FS} {path : Str} {file : File}
    (members : List Header) (optional : Bool)
    (hWrite : ∀ h, fs.WriteHeader h = none) (hCopy : ∀ q, fs.Copy q = none)
    (hStat : ∀ q f, fs.Open q = .ok f → ∃ st, f.Stat = .ok st)
    (h : fs.Open path = .ok file) :
    ∃ hdr, hdr.Name = filepath.Base path ∧
      addToArchive fs members path optional = (members ++ [hdr], none) := by
  obtain ⟨st, hst⟩ := hStat path file h
  exact ⟨⟨filepath.Base path, st.Size, st.Mode, st.ModTime⟩, rfl,
    by simp [addToArchive, h, hst, hWrite, hCopy]⟩

theorem addToArchive_optional {fs : FS} (members : List Header) (path : Str)
    (hWrite : ∀ h, fs.WriteHeader h = none) (hCopy : ∀ q, fs.Copy q = none)
    (hStat : ∀ q f, fs.Open q = .ok f → ∃ st, f.Stat = .ok st) :
    (addToArchive fs members path true).2 = none ∧
    (addToArchive fs members path true).1.map Header.Name =
      members.map Header.Name ++ ([path].filter fs.canOpen).map filepath.Base := by
  cases h : fs.Open path with
  | error e =>
    rw [addToArchive_of_open_error members true h]
    simp [FS.canOpen, h]
  | ok file =>
    obtain ⟨hdr, hname, heq⟩ := addToArchive_of_open_ok members true hWrite hCopy hStat h
    rw [heq]
    simp [FS.canOpen, h, hname]

/-- C5 (as stated, refuted): the archive can be created, every file opens and
every write succeeds, but `Stat` fails on the opened `README.md`; then
`createArchive` returns that error and the members are the output and
`LICENSE` only, although `README.md` can be opened. -/
theorem createArchive_stat_counterexample :
    (statFailsOn "README.md".toList).Create "a.tar.gz".toList = none ∧
    (statFailsOn "README.md".toList).canOpen "dist/k6".toList = true ∧
    (statFailsOn "README.md".toList).canOpen "LICENSE".toList = true ∧
    (statFailsOn "README.md".toList).canOpen "README.md".toList = true ∧
    (createArchive (statFailsOn "README.md".toList) "a.tar.gz".toList "dist/k6".toList).1.map
        Header.Name = ["k6".toList, "LICENSE".toList] ∧
    (createArchive (statFailsOn "README.md".toList) "a.tar.gz".toList "dist/k6".toList).2 =
      some (Error.other "stat".toList) := by
  refine ⟨rfl, rfl, rfl, rfl, by decide, by decide⟩

/-- C5 (amended): when the archive file can be created, every write and copy
into the archive succeeds and every file that can be opened can be stat'ed,
`createArchive` returns no error if the output can be opened and then writes
members whose names, in order, are the base name of the output followed by
the base names of those of `LICENSE` and `README.md`, in that order, that can
be opened (an auxiliary file that cannot be opened contributes no member);
if the output cannot be opened, `createArchive` returns that error and writes
no member. -/
theorem createArchive_members (fs : FS) (archive output : Str)
    (hCreate : fs.Create archive = none)
    (hWrite : ∀ h, fs.WriteHeader h = none) (hCopy : ∀ q, fs.Copy q = none)
    (hStat : ∀ q f, fs.Open q = .ok f → ∃ st, f.Stat = .ok st) :
    (∀ e, fs.Open output = .error e → createArchive fs archive output = ([], some e)) ∧
    (fs.canOpen output = true →
      (createArchive fs archive output).2 = none ∧
      (createArchive fs archive output).1.map Header.Name =
        filepath.Base output ::
          (["LICENSE".toList, "README.md".toList].filter fs.canOpen).map filepath.Base) := by
  constructor
  · intro e he
    simp [createArchive, hCreate, addToArchive_of_open_error [] false he]
  · intro hopen
    cases ho : fs.Open output with
    | error e => simp [FS.canOpen, ho] at hopen
    | ok file =>
      obtain ⟨hdr, hname, h1⟩ := addToArchive_of_open_ok [] false hWrite hCopy hStat ho
      obtain ⟨l2, l1⟩ := addToArchive_optional [hdr] "LICENSE".toList hWrite hCopy hStat
      rcases hl : addToArchive fs [hdr] "LICENSE".toList true with ⟨ms, err⟩
      rw [hl] at l1 l2
      simp only at l1 l2
      subst l2
      obtain ⟨r2, r1⟩ := addToArchive_optional ms "README.md".toList hWrite hCopy hStat
      have hc : createArchive fs archive output = addToArchive fs ms "README.md".toList true := by
        simp only [createArchive, hCreate, h1, List.nil_append, hl]
      rw [hc]
      refine ⟨r2, ?_⟩
      rw [r1, l1]
      simp [hname, List.filter_cons]
      split <;> split <;> simp

theorem createArchive_members_witness :
    createArchive noLicense "a.tar.gz".toList "dist/k6".toList =
      ([⟨"k6".toList, 7, 420, 0⟩, ⟨"README.md".toList, 7, 420, 0⟩], none) ∧
    (createArchive noLicense "a.tar.gz".toList "dist/k6".toList).1.map Header.Name =
      filepath.Base "dist/k6".toList ::
        (["LICENSE".toList, "README.md".toList].filter noLicense.canOpen).map filepath.Base :=
  ⟨by decide,
    ((createArchive_members noLicense "a.tar.gz".toList "dist/k6".toList rfl (fun _ => rfl)
      (fun _ => rfl)
      (fun q f h => by
        have hf : f = ⟨.ok ⟨7, 420, 0⟩⟩ := by
          unfold noLicense at h
          simp only at h
          split at h
          · cases h
          · cases h; rfl
        exact ⟨⟨7, 420, 0⟩, by rw [hf]⟩)).2 rfl).2⟩

/-! ## Claims on `prepareGitHubAction` -/

/-- The part of C7 that holds: a non-empty `INPUT_NAME` is left as it is,
whatever `GITHUB_REPOSITORY` and `GITHUB_REF` are. -/
theorem prepareGitHubAction_keeps_name (keys : List Str) (env : Env)
    (h : env "INPUT_NAME".toList ≠ []) :
    (prepareGitHubAction keys env).2 "INPUT_NAME".toList = env "INPUT_NAME".toList := by
  have hne : ("INPUT_NAME".toList = "INPUT_VERSION".toList) = False := by decide
  simp only [prepareGitHubAction]
  split_ifs <;> simp_all [setenv]

/-- C7 (defect in the code): with `INPUT_VERSION` set to `1.2.3` and
`GITHUB_REF` set to `refs/tags/v9`, `prepareGitHubAction` overwrites
`INPUT_VERSION` with `v9`; the assignment of `INPUT_VERSION` lacks the test
for an empty value that guards the assignment of `INPUT_NAME`. -/
theorem prepareGitHubAction_overwrites_version (keys : List Str) :
    taggedEnv "INPUT_VERSION".toList = "1.2.3".toList ∧
    (prepareGitHubAction keys taggedEnv).2 "INPUT_VERSION".toList = "v9".toList := by
  refine ⟨by decide, ?_⟩
  simp only [prepareGitHubAction]
  decide

/-! ## Claims on `guessName` -/

/-- The part of C8 that holds: with an origin url in the loaded configuration
the guessed name is the last path element of the url without a `.git` suffix,
and when the configuration cannot be loaded it is the base name of the
working directory. -/
theorem guessName_sources (cfg : IniFile) (sec : List (Str × Str)) (url dir : Str)
    (getwd : Except Error Str) (e : Error)
    (hsec : cfg.GetSection "remote \"origin\"".toList = some sec)
    (hkey : GetKey sec "url".toList = some url) :
    guessName (.ok cfg) getwd = trimSuffix (path.Base url) ".git".toList ∧
    guessName (.error e) (.ok dir) = filepath.Base dir := by
  simp only [guessName, hsec, hkey, and_self]

/-- C8 (defect in the code): when `.git/config` loads but has no section
`remote "origin"`, or that section has no key `url`, `guessName` returns the
empty name although the working directory `/home/u/proj` is readable and has
the base name `proj`; only the branch for a failed load falls back to the
working directory. -/
theorem guessName_no_origin_empty :
    guessName (.ok ⟨[]⟩) (.ok "/home/u/proj".toList) = [] ∧
    guessName (.ok ⟨[("remote \"origin\"".toList, [])]⟩) (.ok "/home/u/proj".toList) = [] ∧
    filepath.Base "/home/u/proj".toList = "proj".toList ∧
    guessName (.error (Error.other [])) (.ok "/home/u/proj".toList) = "proj".toList := by
  refine ⟨rfl, by decide, by decide, by decide⟩

end Xk6bundler
